import Mathlib

/-!
Verification development for the Homemade-Pinterest repository.

Part 1 embeds the incremental synchronization engine of
`download_tweets.py` (`TweetDownloader.retrieve_all_likes` and its page
loop).  Part 2 embeds the content-addressed media store of
`parse_media.py` (`download_single_file`, `full_cleanup`).

External effects (HTTP fetches, the parser module, hashing, the WebP
converter, the filesystem) are modelled as explicit environments and
state records; machine behaviour that the Python code observes (dict
insertion order, truthiness of empty strings and lists, first-index
search) is reproduced exactly.
-/

namespace HP

/-! ## Sync engine: data model

A page entry as seen by the harvest loop: `isValid` models the external
`TweetParser.is_valid_tweet` verdict and `tweetId` the parsed
`tweet["tweet_id"]` field. -/

structure Entry where
  isValid : Bool
  tweetId : String
deriving DecidableEq

/-- Accumulator of the per-page `for raw_tweet in page` loop:
current `seen_streak`, the `fetched_tweets` list, and whether the inner
`break` at the consecutive-seen limit fired. -/
structure PageAcc where
  streak : Nat
  window : List Entry
  halted : Bool
deriving DecidableEq

/-- One iteration of the `for raw_tweet in page` body
(`download_tweets.py` lines 66-83).  After the inner `break` fired the
remaining iterations do nothing, modelled by the `halted` guard. -/
def pageStep (known : List String) (limit : Nat) (acc : PageAcc) (e : Entry) : PageAcc :=
  if acc.halted then acc
  else if e.isValid = false then acc
  else if e.tweetId ∈ known then
    let s := acc.streak + 1
    if limit ≤ s then { streak := s, window := acc.window, halted := true }
    else { streak := s, window := acc.window ++ [e], halted := false }
  else { streak := 0, window := acc.window ++ [e], halted := false }

/-- The whole `for raw_tweet in page` loop. -/
def processPage (known : List String) (limit : Nat) (streak : Nat) (window : List Entry)
    (page : List Entry) : PageAcc :=
  page.foldl (pageStep known limit) { streak := streak, window := window, halted := false }

/-- The upstream feed: `retrieve_likes_page` (a function of the cursor
only) and `get_cursor` (extraction from the raw page). -/
structure FeedEnv where
  fetch : Option String → Option (List Entry)
  getCursor : List Entry → Option String

/-- State of the `while True` loop in `retrieve_all_likes`, plus a trace
of the cursors passed to `retrieve_likes_page` (one per request). -/
structure HState where
  window : List Entry
  streak : Nat
  cursor : Option String
  oldCursor : Option String
  requested : List (Option String)
deriving DecidableEq

/-- The `while True` harvest loop (`download_tweets.py` lines 60-94),
with fuel bounding the number of observed iterations.  Python truthiness:
`if not page` breaks on a missing page and on an empty list; a falsy
`next_cursor` is `None` or the empty string; the repeat comparison is
against `old_cursor`. -/
def harvestGo (env : FeedEnv) (known : List String) (limit : Nat) :
    Nat → HState → List Entry × List (Option String)
  | 0, st => (st.window, st.requested)
  | Nat.succ n, st =>
    let req := st.requested ++ [st.cursor]
    match env.fetch st.cursor with
    | none => (st.window, req)
    | some page =>
      if page = [] then (st.window, req)
      else
        let acc := processPage known limit st.streak st.window page
        if limit ≤ acc.streak then (acc.window, req)
        else
          match env.getCursor page with
          | none => (acc.window, req)
          | some nc =>
            if nc = "" ∨ st.oldCursor = some nc then (acc.window, req)
            else harvestGo env known limit n
              { window := acc.window, streak := acc.streak, cursor := some nc,
                oldCursor := st.cursor, requested := req }

/-- Initial loop state: `cursor = None`, `old_cursor = None`,
`seen_streak = 0`, nothing fetched. -/
def initHState : HState :=
  { window := [], streak := 0, cursor := none, oldCursor := none, requested := [] }

/-- Keys of `existing_tweet_map`
(`{t["tweet_id"]: t for t in existing_tweets if t.get("tweet_id")}`):
the identifiers of the persisted corpus, truthy ones only. -/
def existingKnown (existing : List Entry) : List String :=
  (existing.map Entry.tweetId).filter (fun i => i ≠ "")

/-- The merge step (`download_tweets.py` lines 105-120): locate the first
existing entry whose id equals the oldest fetched record's id and splice. -/
def mergeStep (fetched existing : List Entry) : List Entry :=
  match fetched.getLast? with
  | none => existing
  | some last =>
    match existing.findIdx? (fun t => t.tweetId == last.tweetId) with
    | none => fetched ++ existing
    | some i => fetched ++ existing.drop (i + 1)

/-- The dedup pass (`download_tweets.py` lines 122-128): keep the first
occurrence of each identifier. -/
def dedupeGo (seen : List String) : List Entry → List Entry
  | [] => []
  | t :: rest =>
    if t.tweetId ∈ seen then dedupeGo seen rest
    else t :: dedupeGo (t.tweetId :: seen) rest

def dedupe (l : List Entry) : List Entry := dedupeGo [] l

/-- Merge followed by the dedup pass: the corpus the non-first-run path
persists. -/
def reconcile (fetched existing : List Entry) : List Entry :=
  dedupe (mergeStep fetched existing)

/-- The whole `retrieve_all_likes` sync, returning the corpus written to
`OUTPUT_FILE`.  On a first run the fetched window is written as-is
(lines 96-101); otherwise the merged and deduplicated corpus is written
(lines 105-131). -/
def retrieveAllLikes (env : FeedEnv) (limit fuel : Nat) (firstRun : Bool)
    (existing : List Entry) : List Entry :=
  let known := if firstRun then [] else existingKnown existing
  let window := (harvestGo env known limit fuel initHState).1
  if firstRun then window else reconcile window existing

example : dedupe [⟨true, "a"⟩, ⟨true, "b"⟩, ⟨true, "a"⟩] = [⟨true, "a"⟩, ⟨true, "b"⟩] := by decide

example :
    mergeStep [⟨true, "X"⟩, ⟨true, "Y"⟩, ⟨true, "B"⟩]
      [⟨true, "A"⟩, ⟨true, "B"⟩, ⟨true, "C"⟩, ⟨true, "D"⟩] =
    [⟨true, "X"⟩, ⟨true, "Y"⟩, ⟨true, "B"⟩, ⟨true, "C"⟩, ⟨true, "D"⟩] := by decide

/-! ## Media store: data model

`parse_media.py` works over the filesystem (two image folders), two
persisted JSON maps, and external primitives (MD5, URL parsing, the WebP
converter, HTTP).  Folders and maps are association lists in iteration
order; the externals live in `MediaEnv`. -/

/-- `CONVERT_EXTS` -/
def convertExts : List String := [".jpg", ".jpeg", ".png"]

/-- `MAX_MEDIA_PER_TWEET` -/
def maxMediaPerTweet : Nat := 4

/-- External primitives used by `parse_media.py`:
`md5hex url` is `md5(url.encode()).hexdigest()`, `urlExt url` is
`Path(urlparse(url).path).suffix`, `lower` is the runtime's
`str.lower()`, `contentHash c` is `compute_file_hash` on a file holding
bytes `c` (empty string on error), `webpBytes c` the bytes Pillow
produces converting `c` to WebP, and `download` the HTTP fetch. -/
structure MediaEnv where
  md5hex : String → String
  urlExt : String → String
  lower : String → String
  contentHash : String → String
  webpBytes : String → String
  download : String → Option String

/-- `canonical_media_filename` (`parse_media.py` lines 118-127). -/
def canonicalMediaFilename (env : MediaEnv) (url : String) : String :=
  if url = "" then ""
  else
    let ext := env.lower (env.urlExt url)
    let h := env.md5hex url
    if ext ∈ convertExts then h ++ ".webp" else h ++ ext

/-- Association-list lookup (Python `dict.get` / `in`). -/
def alGet : List (String × String) → String → Option String
  | [], _ => none
  | (k, v) :: rest, key => if k = key then some v else alGet rest key

/-- Association-list assignment (Python `d[k] = v`: update in place or
append a fresh key). -/
def alSet : List (String × String) → String → String → List (String × String)
  | [], key, val => [(key, val)]
  | (k, v) :: rest, key, val =>
    if k = key then (key, val) :: rest else (k, v) :: alSet rest key val

/-- Removal of a key (Python `del d[k]` / `path.unlink()`). -/
def alRemove : List (String × String) → String → List (String × String)
  | [], _ => []
  | (k, v) :: rest, key => if k = key then rest else (k, v) :: alRemove rest key

def alKeys (m : List (String × String)) : List String := m.map Prod.fst

def alVals (m : List (String × String)) : List String := m.map Prod.snd

/-- The two image folders (`MEDIA_DIR`, `AVATAR_DIR`). -/
inductive Folder
  | media
  | avatar
deriving DecidableEq

/-- On-disk and persisted state of the media store: the two folders
(filename, bytes in iteration order), the content-hash cache
(`.media_hashes.json`), the duplicate-URL map (`.duplicate_urls.json`),
and a trace of the URLs for which an HTTP download was attempted. -/
structure StoreState where
  media : List (String × String)
  avatars : List (String × String)
  hashCache : List (String × String)
  dupMap : List (String × String)
  downloads : List String
deriving DecidableEq

def folderFiles (s : StoreState) : Folder → List (String × String)
  | .media => s.media
  | .avatar => s.avatars

def setFolderFiles (s : StoreState) (f : Folder) (files : List (String × String)) : StoreState :=
  match f with
  | .media => { s with media := files }
  | .avatar => { s with avatars := files }

/-- `download_single_file` after its fast-path check
(`parse_media.py` lines 258-298).  The staging name uses the original
(case-preserved) URL extension; conversion runs when the lowercased
extension is in `CONVERT_EXTS`; `convert_to_webp` returns early without
deleting the staging file when the target already exists; a failed
`unlink` in the duplicate branch falls through to returning the
canonical name with no map updates. -/
def putCore (env : MediaEnv) (url : String) (folder : Folder) (convert : Bool)
    (s : StoreState) : Option String × StoreState :=
  let finalName := canonicalMediaFilename env url
  let ext := env.urlExt url
  let hashedName := env.md5hex url
  let files0 := folderFiles s folder
  if (alGet files0 finalName).isSome then (some finalName, s)
  else
    let s1 := { s with downloads := s.downloads ++ [url] }
    match env.download url with
    | none => (none, s1)
    | some bytes =>
      let origName := hashedName ++ ext
      let files1 := alSet files0 origName bytes
      let step2 : String × List (String × String) :=
        if convert = true ∧ env.lower ext ∈ convertExts then
          let webpName := hashedName ++ ".webp"
          if (alGet files1 webpName).isSome then (webpName, files1)
          else (webpName, alRemove (alSet files1 webpName (env.webpBytes bytes)) origName)
        else (finalName, files1)
      let finalName2 := step2.1
      let files2 := step2.2
      let fileHash :=
        match alGet files2 finalName2 with
        | some c => env.contentHash c
        | none => ""
      match alGet s1.hashCache fileHash with
      | some existingName =>
        match alGet files2 finalName2 with
        | none => (some finalName2, setFolderFiles s1 folder files2)
        | some _ =>
          let files3 := alRemove files2 finalName2
          (some existingName,
            { setFolderFiles s1 folder files3 with dupMap := alSet s1.dupMap url existingName })
      | none =>
        (some finalName2,
          { setFolderFiles s1 folder files2 with
              hashCache := alSet s1.hashCache fileHash finalName2 })

/-- `download_single_file` (`parse_media.py` lines 239-298), with the
hash cache and duplicate map always supplied (as `download_bulk_media`
does).  The fast path returns the mapped name when `known_duplicates`
holds a truthy (nonempty) value for the URL. -/
def downloadSingleFile (env : MediaEnv) (url : String) (folder : Folder) (convert : Bool)
    (s : StoreState) : Option String × StoreState :=
  if url = "" then (none, s)
  else
    match alGet s.dupMap url with
    | some f => if f = "" then putCore env url folder convert s else (some f, s)
    | none => putCore env url folder convert s

/-- A corpus record as `full_cleanup` reads it from `liked_tweets.json`:
the `user_avatar_url` field and the `tweet_media_urls` list. -/
structure MTweet where
  avatarUrl : String
  mediaUrls : List String
deriving DecidableEq

/-- The referenced-filename set of `full_cleanup`
(`parse_media.py` lines 156-168): avatar URLs are skipped when falsy,
media URLs are truncated to `MAX_MEDIA_PER_TWEET` and added unguarded. -/
def referencedFiles (env : MediaEnv) (tweets : List MTweet) : List String :=
  tweets.foldl
    (fun acc t =>
      (acc ++ (if t.avatarUrl = "" then [] else [canonicalMediaFilename env t.avatarUrl]))
        ++ (t.mediaUrls.take maxMediaPerTweet).map (canonicalMediaFilename env))
    []

/-- First pass of `full_cleanup` on one folder
(lines 170-181): a file is removed when the referenced set is nonempty
and does not contain its name. -/
def prunePass (refs : List String) (files : List (String × String)) : List (String × String) :=
  if refs = [] then files
  else files.filter (fun p => decide (p.1 ∈ refs))

/-- Shared accumulator of the second pass: `seen_hashes`, the rebuilt
`hash_map`, and `removed_to_kept`. -/
structure GCAcc where
  seenHashes : List (String × String)
  hashMap : List (String × String)
  removedToKept : List (String × String)
deriving DecidableEq

/-- Second pass of `full_cleanup` on one folder (lines 192-216):
content-hash files in iteration order; a hash failure (empty digest)
skips the file; a repeated hash deletes the file and records the kept
owner; a fresh hash registers the file in `seen_hashes` and `hash_map`.
Returns the surviving files and the updated accumulator. -/
def dedupFolder (env : MediaEnv) : GCAcc → List (String × String) →
    List (String × String) × GCAcc
  | acc, [] => ([], acc)
  | acc, (name, content) :: rest =>
    let h := env.contentHash content
    if h = "" then
      let r := dedupFolder env acc rest
      ((name, content) :: r.1, r.2)
    else
      match alGet acc.seenHashes h with
      | some kept =>
        dedupFolder env { acc with removedToKept := alSet acc.removedToKept name kept } rest
      | none =>
        let acc1 : GCAcc :=
          { seenHashes := alSet acc.seenHashes h name,
            hashMap := alSet acc.hashMap h name,
            removedToKept := acc.removedToKept }
        let r := dedupFolder env acc1 rest
        ((name, content) :: r.1, r.2)

/-- Third pass of `full_cleanup` (lines 222-236): each duplicate-map
entry is repointed when its target was removed during this dedup pass,
dropped when its target is truthy and exists in neither folder, and kept
unchanged otherwise. -/
def repairDup (rtk : List (String × String)) (media avatars : List (String × String)) :
    List (String × String) → List (String × String)
  | [] => []
  | (url, mapped) :: rest =>
    match alGet rtk mapped with
    | some kept => (url, kept) :: repairDup rtk media avatars rest
    | none =>
      if mapped ≠ "" ∧ alGet media mapped = none ∧ alGet avatars mapped = none then
        repairDup rtk media avatars rest
      else (url, mapped) :: repairDup rtk media avatars rest

/-- `full_cleanup` (`parse_media.py` lines 147-236) with
`DOWNLOAD_IMAGES` on: reference prune over both folders, content dedup
over both folders with one shared accumulator (hash map rebuilt from
scratch), then duplicate-map repair. -/
def fullCleanup (env : MediaEnv) (tweets : List MTweet) (s : StoreState) : StoreState :=
  let refs := referencedFiles env tweets
  let media1 := prunePass refs s.media
  let av1 := prunePass refs s.avatars
  let rm := dedupFolder env { seenHashes := [], hashMap := [], removedToKept := [] } media1
  let ra := dedupFolder env rm.2 av1
  let dup2 := repairDup ra.2.removedToKept rm.1 ra.1 s.dupMap
  { media := rm.1, avatars := ra.1, hashCache := ra.2.hashMap,
    dupMap := dup2, downloads := s.downloads }

/-! ## Helper lemmas: sync engine -/

/-- Once the inner break fired, the rest of the page loop does nothing. -/
theorem foldl_pageStep_halted (known : List String) (limit : Nat) :
    ∀ (l : List Entry) (acc : PageAcc), acc.halted = true →
      l.foldl (pageStep known limit) acc = acc := by
  intro l
  induction l with
  | nil => intro acc _; rfl
  | cons e rest ih =>
    intro acc hh
    have hstep : pageStep known limit acc e = acc := by
      unfold pageStep
      rw [if_pos hh]
    rw [List.foldl_cons, hstep]
    exact ih acc hh

/-- The dedup pass leaves a list untouched when its identifiers are
pairwise distinct and disjoint from the seen set. -/
theorem dedupeGo_eq_self (l : List Entry) : ∀ seen : List String,
    (l.map Entry.tweetId).Nodup → (∀ t ∈ l, t.tweetId ∉ seen) → dedupeGo seen l = l := by
  induction l with
  | nil => intro seen _ _; rfl
  | cons t rest ih =>
    intro seen hnd hdisj
    rw [List.map_cons] at hnd
    have hparts := List.nodup_cons.mp hnd
    have hhead : t.tweetId ∉ rest.map Entry.tweetId := hparts.1
    unfold dedupeGo
    rw [if_neg (hdisj t (List.mem_cons_self t rest))]
    congr 1
    apply ih
    · exact hparts.2
    · intro u hu hmem
      rcases List.mem_cons.mp hmem with h | h
      · exact hhead (h ▸ List.mem_map_of_mem Entry.tweetId hu)
      · exact hdisj u (List.mem_cons_of_mem t hu) h

/-- The dedup pass is the identity on corpora with pairwise-distinct
identifiers. -/
theorem dedupe_eq_self (l : List Entry) (h : (l.map Entry.tweetId).Nodup) : dedupe l = l :=
  dedupeGo_eq_self l [] h (by intro t _ hmem; exact (List.not_mem_nil _ hmem))

/-! ## Claim C1: prefix-supersede law of reconciliation -/

/-- C1: when the fetched window is non-empty and its oldest record's
identifier first occurs at position `i` of the existing corpus, the
merged corpus is the window followed by the existing entries after
position `i`; when the spliced concatenation has pairwise-distinct
identifiers the persisted (deduplicated) corpus equals it as well. -/
theorem merge_window_boundary (fetched existing : List Entry) (last : Entry) (i : Nat)
    (hlast : fetched.getLast? = some last)
    (hidx : existing.findIdx? (fun t => t.tweetId == last.tweetId) = some i) :
    mergeStep fetched existing = fetched ++ existing.drop (i + 1) ∧
    (((fetched ++ existing.drop (i + 1)).map Entry.tweetId).Nodup →
      reconcile fetched existing = fetched ++ existing.drop (i + 1)) := by
  have hm : mergeStep fetched existing = fetched ++ existing.drop (i + 1) := by
    simp only [mergeStep, hlast, hidx]
  refine ⟨hm, fun hnd => ?_⟩
  unfold reconcile
  rw [hm]
  exact dedupe_eq_self _ hnd

/-- Witness for C1 at the spec's own example: existing corpus
`[A, B, C, D]`, fetched window `[X, Y, B]`, boundary `B` at index 1. -/
theorem merge_window_boundary_witness :
    reconcile [⟨true, "X"⟩, ⟨true, "Y"⟩, ⟨true, "B"⟩]
        [⟨true, "A"⟩, ⟨true, "B"⟩, ⟨true, "C"⟩, ⟨true, "D"⟩] =
      [⟨true, "X"⟩, ⟨true, "Y"⟩, ⟨true, "B"⟩, ⟨true, "C"⟩, ⟨true, "D"⟩] := by
  have h := merge_window_boundary [⟨true, "X"⟩, ⟨true, "Y"⟩, ⟨true, "B"⟩]
    [⟨true, "A"⟩, ⟨true, "B"⟩, ⟨true, "C"⟩, ⟨true, "D"⟩] ⟨true, "B"⟩ 1
    (by decide) (by decide)
  exact h.2 (by decide)

/-! ## Claim C6: streak and window membership -/

/-- C6: processing one valid record of a page: a known identifier
increments the streak, and when the streak reaches the limit the loop
halts without appending that record and without processing the rest of
the page; a known identifier below the limit continues with the record
appended; an unknown identifier resets the streak to 0 and appends the
record. -/
theorem streak_window_step (known : List String) (limit streak : Nat) (window : List Entry)
    (e : Entry) (rest : List Entry) (hv : e.isValid = true) :
    ((e.tweetId ∈ known ∧ limit ≤ streak + 1) →
      processPage known limit streak window (e :: rest) =
        { streak := streak + 1, window := window, halted := true }) ∧
    ((e.tweetId ∈ known ∧ streak + 1 < limit) →
      processPage known limit streak window (e :: rest) =
        processPage known limit (streak + 1) (window ++ [e]) rest) ∧
    (e.tweetId ∉ known →
      processPage known limit streak window (e :: rest) =
        processPage known limit 0 (window ++ [e]) rest) := by
  refine ⟨fun ⟨hk, hl⟩ => ?_, fun ⟨hk, hl⟩ => ?_, fun hk => ?_⟩
  · have hstep : pageStep known limit { streak := streak, window := window, halted := false } e =
        { streak := streak + 1, window := window, halted := true } := by
      unfold pageStep
      simp [hv, hk, hl]
    unfold processPage
    rw [List.foldl_cons, hstep]
    exact foldl_pageStep_halted known limit rest _ rfl
  · have hstep : pageStep known limit { streak := streak, window := window, halted := false } e =
        { streak := streak + 1, window := window ++ [e], halted := false } := by
      unfold pageStep
      simp [hv, hk, Nat.not_le.mpr hl]
    unfold processPage
    rw [List.foldl_cons, hstep]
  · have hstep : pageStep known limit { streak := streak, window := window, halted := false } e =
        { streak := 0, window := window ++ [e], halted := false } := by
      unfold pageStep
      simp [hv, hk]
    unfold processPage
    rw [List.foldl_cons, hstep]

/-- Witness for C6: with limit 1 and a known identifier the harvest
halts at that record, leaving the window as it was and skipping the rest
of the page. -/
theorem streak_window_step_witness :
    processPage ["k"] 1 0 [] [⟨true, "k"⟩, ⟨true, "z"⟩] =
      { streak := 1, window := [], halted := true } := by
  have h := streak_window_step ["k"] 1 0 [] ⟨true, "k"⟩ [⟨true, "z"⟩] rfl
  exact h.1 ⟨by decide, by decide⟩

/-! ## Claim C5: cursor-repeat termination -/

/-- A feed whose every page carries the trailing cursor `c1`:
the cursorless first request yields page `[p1]`, and every request with
cursor `c1` yields page `[p2]`. -/
def feedEnvRepeat : FeedEnv :=
  { fetch := fun c =>
      match c with
      | none => some [⟨true, "p1"⟩]
      | some s => if s = "c1" then some [⟨true, "p2"⟩] else none,
    getCursor := fun _ => some "c1" }

/-- Counterexample to C5 as stated: page 2 is requested with cursor
`c1` and the cursor extracted after it is again `c1` (identical to the
one used to request that page), yet the harvest requests a further page
(the trace holds three requests, the third again with `c1`).  The code
compares the new cursor against `old_cursor`, the cursor of the page
before the current one, so the repeat is only detected one page later. -/
theorem cursor_repeat_extra_fetch_cex :
    (harvestGo feedEnvRepeat [] 50 10 initHState).2 = [none, some "c1", some "c1"] ∧
    feedEnvRepeat.getCursor [⟨true, "p2"⟩] = some "c1" := by
  constructor
  · decide
  · decide

/-- C5 amended: the harvest stops, requesting no further page, exactly
at the loop's own test: when the cursor extracted after a page is
absent, empty, or identical to `old_cursor` — the cursor used to request
the page *before* the current one. -/
theorem harvest_stop_old_cursor (env : FeedEnv) (known : List String) (limit n : Nat)
    (st : HState) (page : List Entry)
    (hf : env.fetch st.cursor = some page) (hne : page ≠ [])
    (hstreak : ¬ limit ≤ (processPage known limit st.streak st.window page).streak)
    (hc : env.getCursor page = none ∨
      ∃ s, env.getCursor page = some s ∧ (s = "" ∨ st.oldCursor = some s)) :
    harvestGo env known limit (n + 1) st =
      ((processPage known limit st.streak st.window page).window,
        st.requested ++ [st.cursor]) := by
  unfold harvestGo
  rw [hf]
  simp only [if_neg hne, if_neg hstreak]
  rcases hc with hnone | ⟨s, hs, hrep⟩
  · rw [hnone]
  · simp only [hs]
    rw [if_pos hrep]

/-- Witness for C5 amended: a single page whose extracted cursor is
absent ends the harvest after one request. -/
theorem harvest_stop_old_cursor_witness :
    harvestGo ⟨fun _ => some [⟨true, "a"⟩], fun _ => none⟩ [] 50 (3 + 1) initHState =
      ((processPage [] 50 initHState.streak initHState.window [⟨true, "a"⟩]).window,
        initHState.requested ++ [initHState.cursor]) := by
  exact harvest_stop_old_cursor ⟨fun _ => some [⟨true, "a"⟩], fun _ => none⟩ [] 50 3
    initHState [⟨true, "a"⟩] rfl (by decide) (by decide) (Or.inl rfl)

/-! ## Claim C9: harvest failure semantics -/

/-- C9: a failed page fetch ends the harvest at once with the window
accumulated so far (which the merge path then reconciles), and a
non-first-run sync whose harvest fetched nothing writes back exactly the
previously persisted corpus (whose identifiers are pairwise distinct, as
the merge path guarantees for corpora it persists). -/
theorem harvest_failure_preserves (env : FeedEnv) (known : List String) (limit n fuel : Nat)
    (st : HState) (existing : List Entry)
    (hf : env.fetch st.cursor = none)
    (hw : (harvestGo env (existingKnown existing) limit fuel initHState).1 = [])
    (hnd : (existing.map Entry.tweetId).Nodup) :
    harvestGo env known limit (n + 1) st = (st.window, st.requested ++ [st.cursor]) ∧
    retrieveAllLikes env limit fuel false existing = existing := by
  constructor
  · unfold harvestGo
    rw [hf]
  · unfold retrieveAllLikes
    simp only [if_neg (Bool.false_ne_true), hw]
    show reconcile [] existing = existing
    unfold reconcile mergeStep
    simp only [List.getLast?_nil]
    exact dedupe_eq_self existing hnd

/-- Witness for C9: a feed that is down from the first request leaves
the persisted corpus `[a]` exactly as it was. -/
theorem harvest_failure_preserves_witness :
    harvestGo ⟨fun _ => none, fun _ => none⟩ [] 50 (0 + 1) initHState =
      (initHState.window, initHState.requested ++ [initHState.cursor]) ∧
    retrieveAllLikes ⟨fun _ => none, fun _ => none⟩ 50 4 false [⟨true, "a"⟩] =
      [⟨true, "a"⟩] := by
  exact harvest_failure_preserves ⟨fun _ => none, fun _ => none⟩ [] 50 0 4 initHState
    [⟨true, "a"⟩] rfl (by decide) (by decide)

/-! ## Claim C2: uniqueness of persisted corpora -/

/-- A feed whose single page repeats one identifier: the cursorless
request yields two valid records both carrying id `1`, and no
continuation cursor is offered. -/
def feedEnvDup : FeedEnv :=
  { fetch := fun c =>
      match c with
      | none => some [⟨true, "1"⟩, ⟨true, "1"⟩]
      | some _ => none,
    getCursor := fun _ => none }

/-- C2 fails on the first-run path: the sync persists the fetched window
verbatim (`download_tweets.py` lines 96-101 skip the dedup pass of lines
122-128), so when the upstream repeats an identifier the persisted
corpus holds two records with the same id. -/
theorem firstRun_duplicate_persisted :
    retrieveAllLikes feedEnvDup 50 5 true [] = [⟨true, "1"⟩, ⟨true, "1"⟩] ∧
    ¬ ((retrieveAllLikes feedEnvDup 50 5 true []).map Entry.tweetId).Nodup := by
  constructor
  · decide
  · decide

/-! ## Helper lemmas: media store -/

/-- `canonical_media_filename` on a non-convertible, already-lowercase
extension keeps the URL digest plus the extension. -/
theorem canonical_noconvert (env : MediaEnv) (url : String) (hurl : url ≠ "")
    (hlow : env.lower (env.urlExt url) = env.urlExt url)
    (hnc : env.urlExt url ∉ convertExts) :
    canonicalMediaFilename env url = env.md5hex url ++ env.urlExt url := by
  unfold canonicalMediaFilename
  rw [if_neg hurl]
  dsimp only
  rw [hlow, if_neg hnc]

/-! ## Claim C7: put fast-path -/

/-- An environment for evaluating the store on concrete inputs. -/
def mediaEnvTriv : MediaEnv :=
  { md5hex := fun u => u, urlExt := fun _ => ".bin", lower := fun s => s,
    contentHash := fun c => c, webpBytes := fun c => c, download := fun _ => some "B" }

/-- A store whose duplicate map points `u` at `f.webp` although no such
file exists in either folder. -/
def storeDangling : StoreState :=
  { media := [], avatars := [], hashCache := [], dupMap := [("u", "f.webp")], downloads := [] }

/-- Counterexample to C7 as stated: the URL `u` is present in the
duplicate map with a filename that does NOT exist on disk, and `put`
still returns that filename immediately, attempting no download and
leaving the store untouched — the fast path (`parse_media.py` lines
252-256) never checks disk existence, so the claimed "exactly when ...
still exists on disk" is false. -/
theorem put_fastpath_no_existence_cex :
    downloadSingleFile mediaEnvTriv "u" Folder.media true storeDangling =
      (some "f.webp", storeDangling) ∧
    alGet storeDangling.media "f.webp" = none ∧
    alGet storeDangling.avatars "f.webp" = none := by
  refine ⟨by decide, by decide, by decide⟩

/-- C7 amended: `put` returns immediately with the mapped filename —
performing no download and no write — whenever the URL is present in the
duplicate map with a truthy (nonempty) filename, with no check that the
file still exists on disk.  (A second downloadless return, out of scope
here, happens when the canonical file already exists.) -/
theorem put_fastpath_dupmap (env : MediaEnv) (url : String) (folder : Folder) (convert : Bool)
    (s : StoreState) (f : String)
    (hurl : url ≠ "") (hget : alGet s.dupMap url = some f) (hf : f ≠ "") :
    downloadSingleFile env url folder convert s = (some f, s) := by
  unfold downloadSingleFile
  rw [if_neg hurl]
  simp only [hget]
  rw [if_neg hf]

/-- Witness for C7 amended at a concrete store. -/
theorem put_fastpath_dupmap_witness :
    downloadSingleFile mediaEnvTriv "v" Folder.avatar false
      { media := [], avatars := [("g.png", "X")], hashCache := [],
        dupMap := [("v", "g.png")], downloads := [] } =
      (some "g.png",
        { media := [], avatars := [("g.png", "X")], hashCache := [],
          dupMap := [("v", "g.png")], downloads := [] }) := by
  exact put_fastpath_dupmap mediaEnvTriv "v" Folder.avatar false _ "g.png"
    (by decide) (by decide) (by decide)

/-! ## Claim C3: content dedup across distinct URLs -/

theorem alGet_mem_vals : ∀ (m : List (String × String)) (k v : String),
    alGet m k = some v → v ∈ alVals m := by
  intro m
  induction m with
  | nil => intro k v h; exact absurd h (by simp [alGet])
  | cons p rest ih =>
    intro k v h
    obtain ⟨pk, pv⟩ := p
    by_cases hk : pk = k
    · simp only [alGet, if_pos hk, Option.some.injEq] at h
      simp [alVals, h]
    · simp only [alGet, if_neg hk] at h
      simp only [alVals, List.map_cons, List.mem_cons]
      exact Or.inr (ih k v h)

theorem alSet_vals : ∀ (m : List (String × String)) (k val v : String),
    v ∈ alVals (alSet m k val) → v ∈ alVals m ∨ v = val := by
  intro m
  induction m with
  | nil => intro k val v h; simp [alSet, alVals] at h; exact Or.inr h
  | cons p rest ih =>
    intro k val v h
    obtain ⟨pk, pv⟩ := p
    by_cases hk : pk = k
    · simp only [alSet, if_pos hk, alVals, List.map_cons, List.mem_cons] at h
      rcases h with h | h
      · exact Or.inr h
      · exact Or.inl (by simp [alVals, h])
    · simp only [alSet, if_neg hk, alVals, List.map_cons, List.mem_cons] at h
      rcases h with h | h
      · exact Or.inl (by simp [alVals, h])
      · rcases ih k val v h with h2 | h2
        · exact Or.inl (by simp [alVals]; exact Or.inr (by simpa [alVals] using h2))
        · exact Or.inr h2

theorem alGet_isSome_of_mem_keys : ∀ (m : List (String × String)) (k : String),
    k ∈ alKeys m → (alGet m k).isSome := by
  intro m
  induction m with
  | nil => intro k h; simp [alKeys] at h
  | cons p rest ih =>
    intro k h
    obtain ⟨pk, pv⟩ := p
    by_cases hk : pk = k
    · simp [alGet, if_pos hk]
    · simp only [alKeys, List.map_cons, List.mem_cons] at h
      rcases h with h | h
      · exact absurd h.symm hk
      · simp only [alGet, if_neg hk]
        exact ih k h

/-- Every survivor of the content-dedup pass was among the input files. -/
theorem dedup_sub (env : MediaEnv) : ∀ (fs : List (String × String)) (acc : GCAcc)
    (p : String × String), p ∈ (dedupFolder env acc fs).1 → p ∈ fs := by
  intro fs
  induction fs with
  | nil => intro acc p hp; simp [dedupFolder] at hp
  | cons f rest ih =>
    intro acc p hp
    obtain ⟨name, content⟩ := f
    by_cases hh : env.contentHash content = ""
    · simp only [dedupFolder, if_pos hh] at hp
      rcases List.mem_cons.mp hp with h | h
      · exact h ▸ List.mem_cons_self _ _
      · exact List.mem_cons_of_mem _ (ih acc p h)
    · simp only [dedupFolder, if_neg hh] at hp
      cases hg : alGet acc.seenHashes (env.contentHash content) with
      | some kept =>
        simp only [hg] at hp
        exact List.mem_cons_of_mem _ (ih _ p hp)
      | none =>
        simp only [hg] at hp
        rcases List.mem_cons.mp hp with h | h
        · exact h ▸ List.mem_cons_self _ _
        · exact List.mem_cons_of_mem _ (ih _ p h)

/-- Values recorded in `seen_hashes` by the dedup pass are either values
it started with or names of files it kept. -/
theorem dedup_seen_vals (env : MediaEnv) : ∀ (fs : List (String × String)) (acc : GCAcc)
    (v : String), v ∈ alVals ((dedupFolder env acc fs).2).seenHashes →
      v ∈ alVals acc.seenHashes ∨ v ∈ alKeys (dedupFolder env acc fs).1 := by
  intro fs
  induction fs with
  | nil => intro acc v hv; simp only [dedupFolder] at hv; exact Or.inl hv
  | cons f rest ih =>
    intro acc v hv
    obtain ⟨name, content⟩ := f
    by_cases hh : env.contentHash content = ""
    · simp only [dedupFolder, if_pos hh] at hv ⊢
      rcases ih acc v hv with h | h
      · exact Or.inl h
      · exact Or.inr (by simp [alKeys]; right; simpa [alKeys] using h)
    · simp only [dedupFolder, if_neg hh] at hv ⊢
      cases hg : alGet acc.seenHashes (env.contentHash content) with
      | some kept =>
        simp only [hg] at hv ⊢
        rcases ih _ v hv with h | h
        · exact Or.inl h
        · exact Or.inr h
      | none =>
        simp only [hg] at hv ⊢
        rcases ih _ v hv with h | h
        · rcases alSet_vals _ _ _ _ h with h2 | h2
          · exact Or.inl h2
          · exact Or.inr (by simp [alKeys, h2])
        · exact Or.inr (by simp [alKeys]; right; simpa [alKeys] using h)

/-- Values recorded in `removed_to_kept` by the dedup pass are values it
started with, seen-hash values it started with, or names of kept files. -/
theorem dedup_rtk_vals (env : MediaEnv) : ∀ (fs : List (String × String)) (acc : GCAcc)
    (v : String), v ∈ alVals ((dedupFolder env acc fs).2).removedToKept →
      v ∈ alVals acc.removedToKept ∨ v ∈ alVals acc.seenHashes ∨
        v ∈ alKeys (dedupFolder env acc fs).1 := by
  intro fs
  induction fs with
  | nil => intro acc v hv; simp only [dedupFolder] at hv; exact Or.inl hv
  | cons f rest ih =>
    intro acc v hv
    obtain ⟨name, content⟩ := f
    by_cases hh : env.contentHash content = ""
    · simp only [dedupFolder, if_pos hh] at hv ⊢
      rcases ih acc v hv with h | h | h
      · exact Or.inl h
      · exact Or.inr (Or.inl h)
      · exact Or.inr (Or.inr (by simp [alKeys]; right; simpa [alKeys] using h))
    · simp only [dedupFolder, if_neg hh] at hv ⊢
      cases hg : alGet acc.seenHashes (env.contentHash content) with
      | some kept =>
        simp only [hg] at hv ⊢
        rcases ih _ v hv with h | h | h
        · rcases alSet_vals _ _ _ _ h with h2 | h2
          · exact Or.inl h2
          · exact Or.inr (Or.inl (h2 ▸ alGet_mem_vals _ _ _ hg))
        · exact Or.inr (Or.inl h)
        · exact Or.inr (Or.inr h)
      | none =>
        simp only [hg] at hv ⊢
        rcases ih _ v hv with h | h | h
        · exact Or.inl h
        · rcases alSet_vals _ _ _ _ h with h2 | h2
          · exact Or.inr (Or.inl h2)
          · exact Or.inr (Or.inr (by simp [alKeys, h2]))
        · exact Or.inr (Or.inr (by simp [alKeys]; right; simpa [alKeys] using h))

/-- Where each entry of the repaired duplicate map comes from. -/
theorem repair_mem (rtk med av : List (String × String)) :
    ∀ (dm : List (String × String)) (u m : String), (u, m) ∈ repairDup rtk med av dm →
      (∃ m0, (u, m0) ∈ dm ∧ alGet rtk m0 = some m) ∨
      ((u, m) ∈ dm ∧ alGet rtk m = none ∧
        ¬(m ≠ "" ∧ alGet med m = none ∧ alGet av m = none)) := by
  intro dm
  induction dm with
  | nil => intro u m h; simp [repairDup] at h
  | cons e rest ih =>
    intro u m h
    obtain ⟨eu, em⟩ := e
    cases hg : alGet rtk em with
    | some kept =>
      simp only [repairDup, hg] at h
      rcases List.mem_cons.mp h with h2 | h2
      · rw [Prod.mk.injEq] at h2
        obtain ⟨h3, h4⟩ := h2
        subst h3
        subst h4
        exact Or.inl ⟨em, List.mem_cons_self _ _, hg⟩
      · rcases ih u m h2 with ⟨m0, hm0, hget⟩ | ⟨hmem, hget, hcond⟩
        · exact Or.inl ⟨m0, List.mem_cons_of_mem _ hm0, hget⟩
        · exact Or.inr ⟨List.mem_cons_of_mem _ hmem, hget, hcond⟩
    | none =>
      simp only [repairDup, hg] at h
      by_cases hcond : em ≠ "" ∧ alGet med em = none ∧ alGet av em = none
      · rw [if_pos hcond] at h
        rcases ih u m h with ⟨m0, hm0, hget⟩ | ⟨hmem, hget, hc⟩
        · exact Or.inl ⟨m0, List.mem_cons_of_mem _ hm0, hget⟩
        · exact Or.inr ⟨List.mem_cons_of_mem _ hmem, hget, hc⟩
      · rw [if_neg hcond] at h
        rcases List.mem_cons.mp h with h2 | h2
        · rw [Prod.mk.injEq] at h2
          obtain ⟨h3, h4⟩ := h2
          subst h3
          subst h4
          exact Or.inr ⟨List.mem_cons_self _ _, hg, hcond⟩
        · rcases ih u m h2 with ⟨m0, hm0, hget⟩ | ⟨hmem, hget, hc⟩
          · exact Or.inl ⟨m0, List.mem_cons_of_mem _ hm0, hget⟩
          · exact Or.inr ⟨List.mem_cons_of_mem _ hmem, hget, hc⟩

/-! ## Claim C8: GC orphan pruning -/

/-- A store holding one file that no corpus record references. -/
def storeOrphan : StoreState :=
  { media := [("orphan.bin", "X")], avatars := [], hashCache := [], dupMap := [],
    downloads := [] }

/-- Counterexample to C8 as stated: with an empty corpus the referenced
set is empty, and garbage collection deletes nothing — the orphan file
survives, although the claim says every file outside the referenced set
(including when that set is empty) is deleted.  The guard
`if referenced_files and ...` (`parse_media.py` line 176) skips deletion
whenever the referenced set is empty. -/
theorem gc_empty_refs_keeps_orphan_cex :
    referencedFiles mediaEnvTriv [] = [] ∧
    (fullCleanup mediaEnvTriv [] storeOrphan).media = [("orphan.bin", "X")] := by
  refine ⟨rfl, by decide⟩

/-- C8 amended: when the referenced set is empty the orphan phase
deletes nothing; when it is nonempty, every file surviving garbage
collection is referenced (every unreferenced on-disk file was deleted). -/
theorem gc_orphan_prune (env : MediaEnv) (tweets : List MTweet) (s : StoreState) :
    (referencedFiles env tweets = [] →
      prunePass (referencedFiles env tweets) s.media = s.media ∧
      prunePass (referencedFiles env tweets) s.avatars = s.avatars) ∧
    (referencedFiles env tweets ≠ [] →
      (∀ p ∈ (fullCleanup env tweets s).media, p.1 ∈ referencedFiles env tweets) ∧
      (∀ p ∈ (fullCleanup env tweets s).avatars, p.1 ∈ referencedFiles env tweets)) := by
  constructor
  · intro h
    rw [prunePass, if_pos h, prunePass, if_pos h]
    exact ⟨rfl, rfl⟩
  · intro h
    constructor
    · intro p hp
      have hp2 : p ∈ prunePass (referencedFiles env tweets) s.media :=
        dedup_sub env _ _ p (by simpa [fullCleanup] using hp)
      rw [prunePass, if_neg h] at hp2
      exact of_decide_eq_true (List.mem_filter.mp hp2).2
    · intro p hp
      have hp2 : p ∈ prunePass (referencedFiles env tweets) s.avatars :=
        dedup_sub env _ _ p (by simpa [fullCleanup] using hp)
      rw [prunePass, if_neg h] at hp2
      exact of_decide_eq_true (List.mem_filter.mp hp2).2

/-- Witness for C8 amended: a referenced file survives GC and is indeed
in the referenced set. -/
theorem gc_orphan_prune_witness :
    ("a.bin", "X").1 ∈ referencedFiles mediaEnvTriv [⟨"", ["a"]⟩] := by
  have h := (gc_orphan_prune mediaEnvTriv [⟨"", ["a"]⟩]
    { media := [("a.bin", "X")], avatars := [], hashCache := [], dupMap := [],
      downloads := [] }).2 (by decide)
  exact h.1 ("a.bin", "X") (by decide)

/-! ## Claim C4: duplicate-map repair leaves no dangling reference -/

/-- C4: after one garbage-collection run over a duplicate map whose
values are truthy filenames (as every map the program itself writes is),
every remaining entry points at a filename present in one of the two
folders: repointed entries target the kept survivor of this run's
content dedup, untouched entries were checked to exist, and the rest
were dropped. -/
theorem dupmap_repair_no_dangling (env : MediaEnv) (tweets : List MTweet) (s : StoreState)
    (hvals : ∀ p ∈ s.dupMap, p.2 ≠ "") :
    ∀ p ∈ (fullCleanup env tweets s).dupMap,
      (alGet (fullCleanup env tweets s).media p.2).isSome ∨
      (alGet (fullCleanup env tweets s).avatars p.2).isSome := by
  intro p hp
  obtain ⟨u, m⟩ := p
  simp only [fullCleanup] at hp ⊢
  have hmem := repair_mem _ _ _ s.dupMap u m hp
  rcases hmem with ⟨m0, hm0, hget⟩ | ⟨hmem2, hget, hcond⟩
  · have hv := alGet_mem_vals _ _ _ hget
    rcases dedup_rtk_vals env _ _ _ hv with h | h | h
    · rcases dedup_rtk_vals env _ _ _ h with h2 | h2 | h2
      · simp [alVals] at h2
      · simp [alVals] at h2
      · exact Or.inl (alGet_isSome_of_mem_keys _ _ h2)
    · rcases dedup_seen_vals env _ _ _ h with h2 | h2
      · simp [alVals] at h2
      · exact Or.inl (alGet_isSome_of_mem_keys _ _ h2)
    · exact Or.inr (alGet_isSome_of_mem_keys _ _ h)
  · have hne : m ≠ "" := hvals (u, m) hmem2
    by_cases hmed : alGet (dedupFolder env (GCAcc.mk [] [] [])
        (prunePass (referencedFiles env tweets) s.media)).1 m = none
    · refine Or.inr ?_
      rw [Option.isSome_iff_ne_none]
      intro hav
      exact hcond ⟨hne, hmed, hav⟩
    · exact Or.inl (Option.isSome_iff_ne_none.mpr hmed)

/-- A store with two byte-identical referenced files and a duplicate-map
entry pointing at the one GC will delete. -/
def storeDupPair : StoreState :=
  { media := [("a.bin", "X"), ("b.bin", "X")], avatars := [], hashCache := [],
    dupMap := [("u", "b.bin")], downloads := [] }

/-- Witness for C4: the entry for `u` gets repointed to the kept file
`a.bin`, which exists in the media folder after the run. -/
theorem dupmap_repair_no_dangling_witness :
    (alGet (fullCleanup mediaEnvTriv [⟨"", ["a", "b"]⟩] storeDupPair).media
      ("u", "a.bin").2).isSome ∨
    (alGet (fullCleanup mediaEnvTriv [⟨"", ["a", "b"]⟩] storeDupPair).avatars
      ("u", "a.bin").2).isSome := by
  exact dupmap_repair_no_dangling mediaEnvTriv [⟨"", ["a", "b"]⟩] storeDupPair
    (by decide) ("u", "a.bin") (by decide)

/-! ## Helper lemmas: GC idempotence -/

/-- `seen_hashes` and `hash_map` receive identical assignments, so they
stay equal whenever they start equal. -/
theorem dedup_hm_inv (env : MediaEnv) : ∀ (fs : List (String × String)) (acc : GCAcc),
    acc.hashMap = acc.seenHashes →
    ((dedupFolder env acc fs).2).hashMap = ((dedupFolder env acc fs).2).seenHashes := by
  intro fs
  induction fs with
  | nil => intro acc h; simpa [dedupFolder] using h
  | cons f rest ih =>
    intro acc h
    obtain ⟨name, content⟩ := f
    by_cases hh : env.contentHash content = ""
    · simp only [dedupFolder, if_pos hh]
      exact ih acc h
    · simp only [dedupFolder, if_neg hh]
      cases hg : alGet acc.seenHashes (env.contentHash content) with
      | some kept =>
        simp only [hg]
        exact ih _ h
      | none =>
        simp only [hg]
        apply ih
        show alSet acc.hashMap _ _ = alSet acc.seenHashes _ _
        rw [h]

/-- Re-running the content-dedup pass on its own survivors (with any
start whose `seen_hashes` agree) keeps every file, rebuilds the same
`seen_hashes`, and records no removal. -/
theorem dedup_stable (env : MediaEnv) : ∀ (fs : List (String × String)) (acc1 acc2 : GCAcc),
    acc2.seenHashes = acc1.seenHashes →
    (dedupFolder env acc2 (dedupFolder env acc1 fs).1).1 = (dedupFolder env acc1 fs).1 ∧
    ((dedupFolder env acc2 (dedupFolder env acc1 fs).1).2).seenHashes =
      ((dedupFolder env acc1 fs).2).seenHashes ∧
    ((dedupFolder env acc2 (dedupFolder env acc1 fs).1).2).removedToKept =
      acc2.removedToKept := by
  intro fs
  induction fs with
  | nil =>
    intro acc1 acc2 hseen
    exact ⟨rfl, hseen, rfl⟩
  | cons f rest ih =>
    intro acc1 acc2 hseen
    obtain ⟨name, content⟩ := f
    by_cases hh : env.contentHash content = ""
    · simp only [dedupFolder, if_pos hh]
      obtain ⟨ha, hb, hc⟩ := ih acc1 acc2 hseen
      exact ⟨by rw [ha], hb, hc⟩
    · simp only [dedupFolder, if_neg hh]
      cases hg1 : alGet acc1.seenHashes (env.contentHash content) with
      | some kept =>
        simp only [hg1]
        exact ih _ acc2 hseen
      | none =>
        have hg2 : alGet acc2.seenHashes (env.contentHash content) = none := by
          rw [hseen]; exact hg1
        simp only [hg1, dedupFolder, if_neg hh, hg2]
        obtain ⟨ha, hb, hc⟩ := ih
          { seenHashes := alSet acc1.seenHashes (env.contentHash content) name,
            hashMap := alSet acc1.hashMap (env.contentHash content) name,
            removedToKept := acc1.removedToKept }
          { seenHashes := alSet acc2.seenHashes (env.contentHash content) name,
            hashMap := alSet acc2.hashMap (env.contentHash content) name,
            removedToKept := acc2.removedToKept }
          (by show alSet acc2.seenHashes _ _ = alSet acc1.seenHashes _ _; rw [hseen])
        exact ⟨by rw [ha], hb, hc⟩

/-- A pruned-then-deduped folder listing is unchanged by pruning again
with the same referenced set. -/
theorem prune_dedup_fix (env : MediaEnv) (refs : List String) (acc : GCAcc)
    (files : List (String × String)) :
    prunePass refs (dedupFolder env acc (prunePass refs files)).1 =
      (dedupFolder env acc (prunePass refs files)).1 := by
  by_cases h : refs = []
  · simp only [prunePass, if_pos h]
  · simp only [prunePass, if_neg h]
    refine List.filter_eq_self.mpr ?_
    intro p hp
    have hp2 := dedup_sub env _ _ p hp
    exact (List.mem_filter.mp hp2).2

/-- Values of the removals recorded across both folders of one GC run
name files kept in one of the two folders. -/
theorem dedup2_rtk_keys (env : MediaEnv) (m1 a1 : List (String × String)) :
    ∀ v ∈ alVals ((dedupFolder env (dedupFolder env (GCAcc.mk [] [] []) m1).2 a1).2).removedToKept,
      v ∈ alKeys (dedupFolder env (GCAcc.mk [] [] []) m1).1 ∨
      v ∈ alKeys (dedupFolder env (dedupFolder env (GCAcc.mk [] [] []) m1).2 a1).1 := by
  intro v hv
  rcases dedup_rtk_vals env _ _ _ hv with h | h | h
  · rcases dedup_rtk_vals env _ _ _ h with h2 | h2 | h2
    · simp [alVals] at h2
    · simp [alVals] at h2
    · exact Or.inl h2
  · rcases dedup_seen_vals env _ _ _ h with h2 | h2
    · simp [alVals] at h2
    · exact Or.inl h2
  · exact Or.inr h

/-- Entries output by the repair pass never satisfy the drop condition. -/
theorem repair_good (rtk med av : List (String × String))
    (hrtk : ∀ v ∈ alVals rtk, v ∈ alKeys med ∨ v ∈ alKeys av) :
    ∀ (dm : List (String × String)) (p : String × String), p ∈ repairDup rtk med av dm →
      ¬(p.2 ≠ "" ∧ alGet med p.2 = none ∧ alGet av p.2 = none) := by
  intro dm p hp
  obtain ⟨u, m⟩ := p
  rcases repair_mem rtk med av dm u m hp with ⟨m0, hm0, hget⟩ | ⟨hmem, hget, hcond⟩
  · rintro ⟨hne, hmed, hav⟩
    rcases hrtk m (alGet_mem_vals _ _ _ hget) with h | h
    · have h2 := alGet_isSome_of_mem_keys med m h
      rw [hmed] at h2
      exact absurd h2 (by simp)
    · have h2 := alGet_isSome_of_mem_keys av m h
      rw [hav] at h2
      exact absurd h2 (by simp)
  · exact hcond

/-- With nothing removed this run, the repair pass keeps every entry
that fails the drop condition. -/
theorem repair_fix (med av : List (String × String)) :
    ∀ dm : List (String × String),
      (∀ p ∈ dm, ¬(p.2 ≠ "" ∧ alGet med p.2 = none ∧ alGet av p.2 = none)) →
      repairDup [] med av dm = dm := by
  intro dm
  induction dm with
  | nil => intro _; rfl
  | cons e rest ih =>
    intro h
    obtain ⟨u, m⟩ := e
    simp only [repairDup, alGet]
    rw [if_neg (h (u, m) (List.mem_cons_self _ _))]
    rw [ih (fun p hp => h p (List.mem_cons_of_mem _ hp))]

/-! ## Claim C10: GC idempotence -/

/-- The pipeline of `full_cleanup`, zeta-expanded. -/
theorem fullCleanup_eq (env : MediaEnv) (tweets : List MTweet) (st : StoreState) :
    fullCleanup env tweets st =
      { media := (dedupFolder env (GCAcc.mk [] [] [])
          (prunePass (referencedFiles env tweets) st.media)).1,
        avatars := (dedupFolder env (dedupFolder env (GCAcc.mk [] [] [])
            (prunePass (referencedFiles env tweets) st.media)).2
          (prunePass (referencedFiles env tweets) st.avatars)).1,
        hashCache := ((dedupFolder env (dedupFolder env (GCAcc.mk [] [] [])
            (prunePass (referencedFiles env tweets) st.media)).2
          (prunePass (referencedFiles env tweets) st.avatars)).2).hashMap,
        dupMap := repairDup
          ((dedupFolder env (dedupFolder env (GCAcc.mk [] [] [])
              (prunePass (referencedFiles env tweets) st.media)).2
            (prunePass (referencedFiles env tweets) st.avatars)).2).removedToKept
          (dedupFolder env (GCAcc.mk [] [] [])
            (prunePass (referencedFiles env tweets) st.media)).1
          (dedupFolder env (dedupFolder env (GCAcc.mk [] [] [])
              (prunePass (referencedFiles env tweets) st.media)).2
            (prunePass (referencedFiles env tweets) st.avatars)).1
          st.dupMap,
        downloads := st.downloads } := rfl

/-- C10: one further `full_cleanup` run over the same corpus, with the
store untouched in between, changes nothing: no file is deleted in
either folder, and the rebuilt hash map and the repaired duplicate map
come out identical. -/
theorem gc_idempotent (env : MediaEnv) (tweets : List MTweet) (s : StoreState) :
    fullCleanup env tweets (fullCleanup env tweets s) = fullCleanup env tweets s := by
  simp only [fullCleanup_eq]
  obtain ⟨hA, hB, hC⟩ := dedup_stable env (prunePass (referencedFiles env tweets) s.media)
    (GCAcc.mk [] [] []) (GCAcc.mk [] [] []) rfl
  rw [prune_dedup_fix env (referencedFiles env tweets) (GCAcc.mk [] [] []) s.media]
  rw [prune_dedup_fix env (referencedFiles env tweets) _ s.avatars]
  obtain ⟨hA2, hB2, hC2⟩ := dedup_stable env (prunePass (referencedFiles env tweets) s.avatars)
    (dedupFolder env (GCAcc.mk [] [] []) (prunePass (referencedFiles env tweets) s.media)).2
    (dedupFolder env (GCAcc.mk [] [] [])
      ((dedupFolder env (GCAcc.mk [] [] [])
        (prunePass (referencedFiles env tweets) s.media)).1)).2
    hB
  have hI1 : ((dedupFolder env (GCAcc.mk [] [] [])
      (prunePass (referencedFiles env tweets) s.media)).2).hashMap =
      ((dedupFolder env (GCAcc.mk [] [] [])
        (prunePass (referencedFiles env tweets) s.media)).2).seenHashes :=
    dedup_hm_inv env _ _ rfl
  have hI1b : ((dedupFolder env (GCAcc.mk [] [] [])
      ((dedupFolder env (GCAcc.mk [] [] [])
        (prunePass (referencedFiles env tweets) s.media)).1)).2).hashMap =
      ((dedupFolder env (GCAcc.mk [] [] [])
        ((dedupFolder env (GCAcc.mk [] [] [])
          (prunePass (referencedFiles env tweets) s.media)).1)).2).seenHashes :=
    dedup_hm_inv env _ _ rfl
  have hI2 := dedup_hm_inv env (prunePass (referencedFiles env tweets) s.avatars)
    (dedupFolder env (GCAcc.mk [] [] []) (prunePass (referencedFiles env tweets) s.media)).2 hI1
  have hI2b := dedup_hm_inv env
    ((dedupFolder env (dedupFolder env (GCAcc.mk [] [] [])
        (prunePass (referencedFiles env tweets) s.media)).2
      (prunePass (referencedFiles env tweets) s.avatars)).1)
    (dedupFolder env (GCAcc.mk [] [] [])
      ((dedupFolder env (GCAcc.mk [] [] [])
        (prunePass (referencedFiles env tweets) s.media)).1)).2
    hI1b
  have hdup : ∀ p ∈ repairDup
      ((dedupFolder env (dedupFolder env (GCAcc.mk [] [] [])
          (prunePass (referencedFiles env tweets) s.media)).2
        (prunePass (referencedFiles env tweets) s.avatars)).2).removedToKept
      (dedupFolder env (GCAcc.mk [] [] [])
        (prunePass (referencedFiles env tweets) s.media)).1
      (dedupFolder env (dedupFolder env (GCAcc.mk [] [] [])
          (prunePass (referencedFiles env tweets) s.media)).2
        (prunePass (referencedFiles env tweets) s.avatars)).1
      s.dupMap,
        ¬(p.2 ≠ "" ∧ alGet (dedupFolder env (GCAcc.mk [] [] [])
            (prunePass (referencedFiles env tweets) s.media)).1 p.2 = none ∧
          alGet (dedupFolder env (dedupFolder env (GCAcc.mk [] [] [])
              (prunePass (referencedFiles env tweets) s.media)).2
            (prunePass (referencedFiles env tweets) s.avatars)).1 p.2 = none) :=
    repair_good _ _ _ (dedup2_rtk_keys env _ _) s.dupMap
  rw [StoreState.mk.injEq]
  refine ⟨?_, ?_, ?_, ?_, rfl⟩
  · exact hA
  · exact hA2
  · rw [hI2b, hB2, hI2]
  · rw [hC2, hC, hA, hA2]
    exact repair_fix _ _ _ hdup

end HP
